import Mathlib

/-!
Verification of the yt-archiver core (src/yt_archiver) against its design
specification. The Python source is shallowly embedded: Python sets of video
ids become `Finset String`, lazy remote streams become `List String`, the
filesystem directory listing becomes an `Except` value (listing can fail) of
directory entries, and regular-expression / glob matching on filenames is
translated to executable functions on `List Char`.
-/

namespace YtArchiver

/-- Python regex `\w` (ASCII range): letters, digits, underscore. -/
def isWordChar (c : Char) : Bool := c.isAlphanum || c = '_'

/-- A character of the regex class `[\w-]`: word character or hyphen. -/
def isWordOrHyphen (c : Char) : Bool := isWordChar c || c = '-'

/-! ### Reconciler (Archiver.sync_channel, archiver.py lines 77-93)

`new_videos = latest_videos.difference(local_videos)` and
`old_videos = local_videos.difference(latest_videos)`; Python
`set.difference` is `Finset.sdiff`. -/

/-- The fetch/purge decision of `sync_channel`: videos to download and
videos to clean up, as computed from the remote (latest) and local sets. -/
def reconcile (latest_videos local_videos : Finset String) :
    Finset String × Finset String :=
  (latest_videos \ local_videos, local_videos \ latest_videos)

/-- Local video-id set after one sync pass in which every fetch and purge
succeeds: `download_videos` adds each id of the fetch set to the local
directory, then `cleanup_videos` removes the files of each id of the purge
set (archiver.py lines 85-93, 150-179). -/
def localAfterSync (latest_videos local_videos : Finset String) :
    Finset String :=
  (local_videos ∪ (reconcile latest_videos local_videos).1) \
    (reconcile latest_videos local_videos).2

/-! ### Remote lister (Archiver.get_latest_videos, archiver.py lines 95-115)

The Python loop is `for index, video in enumerate(videos):` adding
`video["videoId"]` to a set, then `if index + 1 == channel.keep: break`.
When `keep` is `None` the comparison `index + 1 == None` is always false, so
the whole stream is consumed; `keep = none` models that. -/

def get_latest_videos_aux (keep : Option Nat) :
    List String → Nat → Finset String → Finset String
  | [], _, acc => acc
  | v :: vs, index, acc =>
    let acc2 := insert v acc
    if keep = some (index + 1) then acc2
    else get_latest_videos_aux keep vs (index + 1) acc2

/-- `get_latest_videos`: collect ids from the remote stream, breaking after
`keep` items when `keep` is set. -/
def get_latest_videos (videos : List String) (keep : Option Nat) :
    Finset String :=
  get_latest_videos_aux keep videos 0 ∅

/-! ### Local scanner (Archiver.get_local_videos, archiver.py lines 117-148)

The filename pattern is `re.compile("\\[([\\w-]+)\\]\\.\\w+$")` applied with
`re.search`. Because the pattern is anchored at the end of the filename and
each piece excludes the delimiter that follows it, a match, when it exists,
is unique: the extension is the maximal trailing run of word characters and
must be preceded by a dot, that dot by `]`, the `]` by the maximal run of
word-or-hyphen characters, and that token by `[`. `matchVideoId` reads the
reversed filename accordingly and returns the captured group. -/

def matchVideoId (file : List Char) : Option (List Char) :=
  match file.reverse.dropWhile isWordChar, file.reverse.takeWhile isWordChar with
  | d :: b :: rest, _ :: _ =>
    if d = '.' ∧ b = ']' then
      match rest.dropWhile isWordOrHyphen, rest.takeWhile isWordOrHyphen with
      | o :: _, c :: cs =>
        if o = '[' then some ((c :: cs).reverse) else none
      | _, _ => none
    else none
  | _, _ => none

/-- `matchVideoId` on a `String` filename. -/
def fileVideoId (s : String) : Option String :=
  (matchVideoId s.toList).map fun l => ⟨l⟩

/-- One entry of an `os.listdir` result, together with its `os.path.isfile`
status. -/
structure DirEntry where
  name : String
  isFile : Bool

/-- `os.path.join(self.config.output_path(), channel.name)`. -/
def channel_path (output_path channel_name : String) : String :=
  output_path ++ "/" ++ channel_name

/-- `Archiver.get_local_videos`: list the channel directory (the `listdir`
argument embeds `os.listdir`, which can fail); on failure log and return the
empty set; otherwise collect the captured id of every regular file whose name
matches the pattern. -/
def get_local_videos (listdir : String → Except String (List DirEntry))
    (output_path channel_name : String) : Finset String :=
  match listdir (channel_path output_path channel_name) with
  | .error _ => ∅
  | .ok files =>
      ((files.filter fun f => f.isFile).filterMap
        fun f => fileVideoId f.name).toFinset

/-! ### Purger (Archiver.cleanup_videos, archiver.py lines 163-179)

For each id in the purge set the source runs
`glob.glob(os.path.join(output_path, channel.name, f"*{pattern}*"))` and
unlinks every match. `globMatch` embeds fnmatch-style matching for the
pattern alphabet actually reachable here: `*` (any sequence), `?` (any one
character) and literals; bracket character classes cannot occur because the
ids interpolated into the pattern are word-or-hyphen tokens. `globFilter`
adds the hidden-file rule of the Python glob module: a name beginning with a
dot is matched only by a pattern that itself begins with a dot. -/

def globMatch : List Char → List Char → Bool
  | [], n => n.isEmpty
  | c :: ps, n =>
    if c = '*' then
      n.tails.any fun s => globMatch ps s
    else
      match n with
      | [] => false
      | d :: cs => (c == '?' || c == d) && globMatch ps cs

def isHidden (l : List Char) : Bool := l.head? == some '.'

def globFilter (p n : List Char) : Bool :=
  if isHidden n && !isHidden p then false else globMatch p n

/-- The glob pattern `f"*{pattern}*"` built by `cleanup_videos`. -/
def purge_glob (video_id : String) : List Char :=
  '*' :: (video_id.toList ++ ['*'])

/-- The files of the channel directory that `cleanup_videos` deletes: every
file matched by the glob of some purge id (per-file deletion errors are
logged and skipped in the source; here every deletion succeeds). -/
def cleanup_videos_deleted (files patterns : List String) : List String :=
  files.filter fun f => patterns.any fun p => globFilter (purge_glob p) f.toList

/-! ### Config (config.py lines 56-76)

`Config.add_channel` checks for a duplicate id; on success it runs
`self.config.get("channels", []).append(kwargs)`. When the `"channels"` key
is absent from the parsed YAML mapping the fallback `[]` is a fresh
temporary list, so the append is lost while `True` is still returned.
`ConfigData.channelsKey = none` models the absent key. -/

structure Channel where
  name : String
  id : String
  keep : Option Nat

structure ConfigData where
  channelsKey : Option (List Channel)

/-- `Config.channels`: read accessor `self.config.get("channels", [])`. -/
def config_channels (cfg : ConfigData) : List Channel :=
  cfg.channelsKey.getD []

/-- `Config.add_channel`: the updated configuration and the returned Bool. -/
def add_channel (cfg : ConfigData) (new_channel : Channel) :
    ConfigData × Bool :=
  if (config_channels cfg).any fun c => c.id == new_channel.id then
    (cfg, false)
  else
    match cfg.channelsKey with
    | some cs => (⟨some (cs ++ [new_channel])⟩, true)
    | none => (cfg, true)

/-! ### Sync driver (Archiver.sync, archiver.py lines 69-75)

A plain `for` loop calling `sync_channel` with no exception handling: an
exception raised inside `sync_channel` (e.g. the remote feed lookup of
`get_latest_videos`) propagates and aborts the loop. `sync` returns the
channels whose sync completed, paired with the propagated error if any. -/

def sync (sync_channel_result : Channel → Except String Unit) :
    List Channel → List Channel × Option String
  | [] => ([], none)
  | c :: cs =>
    match sync_channel_result c with
    | .error e => ([], some e)
    | .ok _ =>
      let r := sync sync_channel_result cs
      (c :: r.1, r.2)

/-! ### Channel search (Archiver.channel_search, archiver.py lines 37-52)

`for index, result in enumerate(...):` then `if index + 1 == max_results:
break` and only afterwards `yield result` — the break fires before the
yield, so the result at index `max_results - 1` is never yielded. -/

def channel_search_aux (max_results : Nat) : List String → Nat → List String
  | [], _ => []
  | r :: rs, index =>
    if index + 1 = max_results then []
    else r :: channel_search_aux max_results rs (index + 1)

def channel_search (results : List String) (max_results : Nat) : List String :=
  channel_search_aux max_results results 0

/-! ### Supporting lemmas -/

lemma get_latest_videos_aux_none (vs : List String) (i : Nat)
    (acc : Finset String) :
    get_latest_videos_aux none vs i acc = acc ∪ vs.toFinset := by
  induction vs generalizing i acc with
  | nil => simp [get_latest_videos_aux]
  | cons v vs ih =>
    simp only [get_latest_videos_aux, ih, List.toFinset_cons]
    ext x
    simp [or_comm, or_assoc, or_left_comm]

lemma get_latest_videos_aux_some (k : Nat) (vs : List String) (i : Nat)
    (acc : Finset String) (hik : i < k) :
    get_latest_videos_aux (some k) vs i acc =
      acc ∪ (vs.take (k - i)).toFinset := by
  induction vs generalizing i acc with
  | nil => simp [get_latest_videos_aux]
  | cons v vs ih =>
    simp only [get_latest_videos_aux]
    by_cases hbreak : k = i + 1
    · subst hbreak
      simp only [if_pos rfl]
      have h1 : i + 1 - i = 1 := by omega
      ext x
      simp [h1, or_comm]
    · have hne : ¬ (some k = some (i + 1)) := by
        intro h; exact hbreak (Option.some.injEq _ _ ▸ h)
      rw [if_neg hne, ih (i + 1) _ (by omega)]
      have h2 : k - i = (k - (i + 1)) + 1 := by omega
      rw [h2, List.take_succ_cons]
      ext x
      simp [or_comm, or_assoc, or_left_comm]

lemma takeWhile_all_append {α : Type} {p : α → Bool} {a : List α} {b : α}
    {rest : List α} (ha : ∀ c ∈ a, p c = true) (hb : p b = false) :
    (a ++ b :: rest).takeWhile p = a := by
  induction a with
  | nil => simp [List.takeWhile_cons, hb]
  | cons x xs ih =>
    have hx : p x = true := ha x (List.mem_cons_self x xs)
    simp only [List.cons_append, List.takeWhile_cons, hx, if_true]
    rw [ih fun c hc => ha c (List.mem_cons_of_mem x hc)]

lemma dropWhile_all_append {α : Type} {p : α → Bool} {a : List α} {b : α}
    {rest : List α} (ha : ∀ c ∈ a, p c = true) (hb : p b = false) :
    (a ++ b :: rest).dropWhile p = b :: rest := by
  induction a with
  | nil => simp [List.dropWhile_cons, hb]
  | cons x xs ih =>
    have hx : p x = true := ha x (List.mem_cons_self x xs)
    simp only [List.cons_append, List.dropWhile_cons, hx, if_true]
    exact ih fun c hc => ha c (List.mem_cons_of_mem x hc)

lemma mem_of_mem_takeWhile {α : Type} {p : α → Bool} {l : List α} {a : α}
    (h : a ∈ l.takeWhile p) : p a = true := by
  induction l with
  | nil => simp [List.takeWhile] at h
  | cons x xs ih =>
    rw [List.takeWhile_cons] at h
    by_cases hx : p x = true
    · rw [if_pos hx] at h
      rcases List.mem_cons.mp h with rfl | h2
      · exact hx
      · exact ih h2
    · rw [if_neg hx] at h
      simp at h

/-- The captured group of a successful match is nonempty and consists of
word-or-hyphen characters only. -/
lemma matchVideoId_token {file tok : List Char}
    (h : matchVideoId file = some tok) :
    tok ≠ [] ∧ ∀ c ∈ tok, isWordOrHyphen c = true := by
  unfold matchVideoId at h
  split at h
  case _ d b rest e es heq1 heq2 =>
    split at h
    case isTrue hdb =>
      split at h
      case _ o os c cs heq3 heq4 =>
        split at h
        case isTrue ho =>
          have htok : tok = (c :: cs).reverse :=
            (Option.some.injEq _ _).mp h.symm
          subst htok
          constructor
          · simp
          · intro x hx
            rw [List.mem_reverse] at hx
            have hx2 : x ∈ rest.takeWhile isWordOrHyphen := by
              rw [heq4]; exact hx
            exact mem_of_mem_takeWhile hx2
        case isFalse => exact absurd h (by simp)
      case _ => exact absurd h (by simp)
    case isFalse => exact absurd h (by simp)
  case _ => exact absurd h (by simp)

/-- A filename matches the scanner pattern exactly when it ends with `[`,
a nonempty token of word-or-hyphen characters, `]`, a dot and a nonempty
run of word characters. -/
lemma matchVideoId_isSome_iff (file : List Char) :
    (matchVideoId file).isSome = true ↔
      ∃ pre tok ext, file = pre ++ '[' :: (tok ++ ']' :: '.' :: ext) ∧
        tok ≠ [] ∧ (∀ c ∈ tok, isWordOrHyphen c = true) ∧
        ext ≠ [] ∧ (∀ c ∈ ext, isWordChar c = true) := by
  constructor
  · intro h
    unfold matchVideoId at h
    split at h
    case _ d b rest e es heq1 heq2 =>
      split at h
      case isTrue hdb =>
        split at h
        case _ o os c cs heq3 heq4 =>
          split at h
          case isTrue ho =>
            obtain ⟨hd, hb⟩ := hdb
            subst hd; subst hb; subst ho
            have hrev1 : file.reverse = (e :: es) ++ '.' :: ']' :: rest := by
              rw [← List.takeWhile_append_dropWhile (p := isWordChar)
                (l := file.reverse), heq1, heq2]
            have hrest : rest = (c :: cs) ++ '[' :: os := by
              rw [← List.takeWhile_append_dropWhile (p := isWordOrHyphen)
                (l := rest), heq3, heq4]
            refine ⟨os.reverse, (c :: cs).reverse, (e :: es).reverse, ?_,
              by simp, ?_, by simp, ?_⟩
            · have hfile : file = ((e :: es) ++ '.' :: ']' ::
                  ((c :: cs) ++ '[' :: os)).reverse := by
                rw [← hrest, ← hrev1, List.reverse_reverse]
              rw [hfile]
              simp [List.reverse_append, List.append_assoc]
            · intro x hx
              rw [List.mem_reverse] at hx
              have hx2 : x ∈ rest.takeWhile isWordOrHyphen := by
                rw [heq4]; exact hx
              exact mem_of_mem_takeWhile hx2
            · intro x hx
              rw [List.mem_reverse] at hx
              have hx2 : x ∈ file.reverse.takeWhile isWordChar := by
                rw [heq2]; exact hx
              exact mem_of_mem_takeWhile hx2
          case isFalse => exact absurd h (by simp)
        case _ => exact absurd h (by simp)
      case isFalse => exact absurd h (by simp)
    case _ => exact absurd h (by simp)
  · rintro ⟨pre, tok, ext, hfile, htok0, htokp, hext0, hextp⟩
    obtain ⟨e, es, hext⟩ :=
      List.exists_cons_of_ne_nil (List.reverse_ne_nil_iff.mpr hext0)
    obtain ⟨c, cs, htokr⟩ :=
      List.exists_cons_of_ne_nil (List.reverse_ne_nil_iff.mpr htok0)
    have hrev : file.reverse =
        ext.reverse ++ '.' :: ']' :: (tok.reverse ++ '[' :: pre.reverse) := by
      rw [hfile]
      simp [List.reverse_append, List.append_assoc]
    have hextall : ∀ x ∈ ext.reverse, isWordChar x = true := fun x hx =>
      hextp x (List.mem_reverse.mp hx)
    have htokall : ∀ x ∈ tok.reverse, isWordOrHyphen x = true := fun x hx =>
      htokp x (List.mem_reverse.mp hx)
    have htw : file.reverse.takeWhile isWordChar = ext.reverse := by
      rw [hrev]; exact takeWhile_all_append hextall (by decide)
    have hdw : file.reverse.dropWhile isWordChar =
        '.' :: ']' :: (tok.reverse ++ '[' :: pre.reverse) := by
      rw [hrev]; exact dropWhile_all_append hextall (by decide)
    have htw2 : (tok.reverse ++ '[' :: pre.reverse).takeWhile isWordOrHyphen =
        tok.reverse := takeWhile_all_append htokall (by decide)
    have hdw2 : (tok.reverse ++ '[' :: pre.reverse).dropWhile isWordOrHyphen =
        '[' :: pre.reverse := dropWhile_all_append htokall (by decide)
    unfold matchVideoId
    rw [hdw, htw, hext]
    dsimp only
    rw [if_pos ⟨rfl, rfl⟩, hdw2, htw2, htokr]
    dsimp only
    rw [if_pos rfl]
    rfl

/-- Word-or-hyphen characters are never glob metacharacters. -/
lemma wordOrHyphen_not_meta {c : Char} (h : isWordOrHyphen c = true) :
    c ≠ '*' ∧ c ≠ '?' ∧ c ≠ '[' ∧ c ≠ ']' := by
  refine ⟨?_, ?_, ?_, ?_⟩ <;> rintro rfl <;> exact absurd h (by decide)

lemma globMatch_star (ps n : List Char) :
    globMatch ('*' :: ps) n = n.tails.any fun s => globMatch ps s := by
  simp [globMatch]

lemma globMatch_lit_nil {c : Char} (hc : c ≠ '*') (ps : List Char) :
    globMatch (c :: ps) [] = false := by
  simp [globMatch, hc]

lemma globMatch_lit_cons {c : Char} (hc : c ≠ '*') (ps : List Char)
    (d : Char) (cs : List Char) :
    globMatch (c :: ps) (d :: cs) = ((c == '?' || c == d) && globMatch ps cs) := by
  simp [globMatch, hc]

lemma globMatch_star_iff (ps n : List Char) :
    globMatch ('*' :: ps) n = true ↔
      ∃ a b, n = a ++ b ∧ globMatch ps b = true := by
  rw [globMatch_star, List.any_eq_true]
  constructor
  · rintro ⟨s, hs, hmatch⟩
    obtain ⟨a, ha⟩ := (List.mem_tails s n).mp hs
    exact ⟨a, s, ha.symm, hmatch⟩
  · rintro ⟨a, b, rfl, h⟩
    exact ⟨b, (List.mem_tails b (a ++ b)).mpr ⟨a, rfl⟩, h⟩

lemma globMatch_lit_append {pat : List Char} (ps n : List Char)
    (hlit : ∀ c ∈ pat, c ≠ '*' ∧ c ≠ '?') :
    globMatch (pat ++ ps) n = true ↔
      ∃ m, n = pat ++ m ∧ globMatch ps m = true := by
  induction pat generalizing n with
  | nil =>
    simp only [List.nil_append]
    constructor
    · intro h; exact ⟨n, rfl, h⟩
    · rintro ⟨m, rfl, h⟩; exact h
  | cons c pat ih =>
    have hc := hlit c (List.mem_cons_self c pat)
    have hrest : ∀ x ∈ pat, x ≠ '*' ∧ x ≠ '?' := fun x hx =>
      hlit x (List.mem_cons_of_mem c hx)
    cases n with
    | nil =>
      rw [List.cons_append, globMatch_lit_nil hc.1]
      simp
    | cons d cs =>
      rw [List.cons_append, globMatch_lit_cons hc.1, Bool.and_eq_true,
        Bool.or_eq_true, beq_iff_eq, beq_iff_eq]
      constructor
      · rintro ⟨(hq | hd), h⟩
        · exact absurd hq hc.2
        · obtain ⟨m, rfl, hm⟩ := (ih cs hrest).mp h
          exact ⟨m, by rw [List.cons_append, hd], hm⟩
      · rintro ⟨m, hm, h⟩
        rw [List.cons_append] at hm
        obtain ⟨hd, hcs⟩ := List.cons.inj hm
        exact ⟨Or.inr hd.symm, (ih cs hrest).mpr ⟨m, hcs, h⟩⟩

lemma globMatch_star_any (m : List Char) : globMatch ['*'] m = true := by
  rw [globMatch_star, List.any_eq_true]
  exact ⟨[], (List.mem_tails [] m).mpr ⟨m, by simp⟩, rfl⟩

/-- For a metacharacter-free id, the glob pattern `*id*` matches exactly the
names containing the id as a substring. -/
lemma purge_glob_matches (pat : List Char) (n : List Char)
    (hlit : ∀ c ∈ pat, c ≠ '*' ∧ c ≠ '?') :
    globMatch ('*' :: (pat ++ ['*'])) n = true ↔
      ∃ a b, n = a ++ pat ++ b := by
  rw [globMatch_star_iff]
  constructor
  · rintro ⟨a, m, rfl, h⟩
    obtain ⟨b, rfl, _⟩ := (globMatch_lit_append ['*'] m hlit).mp h
    exact ⟨a, b, by rw [List.append_assoc]⟩
  · rintro ⟨a, b, rfl⟩
    refine ⟨a, pat ++ b, by rw [List.append_assoc], ?_⟩
    exact (globMatch_lit_append ['*'] (pat ++ b) hlit).mpr
      ⟨b, rfl, globMatch_star_any b⟩

/-- The full glob of a purge id: substring match on names that are not
hidden (the pattern `*id*` never starts with a dot, so hidden files are
excluded by the glob module). -/
lemma globFilter_purge_iff (id : String) (n : List Char)
    (hlit : ∀ c ∈ id.toList, c ≠ '*' ∧ c ≠ '?') :
    globFilter (purge_glob id) n = true ↔
      n.head? ≠ some '.' ∧ ∃ a b, n = a ++ id.toList ++ b := by
  unfold globFilter
  have hp : isHidden (purge_glob id) = false := rfl
  rw [hp, Bool.not_false, Bool.and_true]
  by_cases hn : isHidden n = true
  · rw [if_pos hn]
    have hhead : n.head? = some '.' := by
      unfold isHidden at hn
      exact beq_iff_eq .. |>.mp hn
    constructor
    · intro h; exact absurd h (by simp)
    · rintro ⟨h1, _⟩; exact absurd hhead h1
  · rw [if_neg hn]
    have hhead : n.head? ≠ some '.' := by
      intro h
      apply hn
      unfold isHidden
      rw [h]
      rfl
    unfold purge_glob
    rw [purge_glob_matches id.toList n hlit]
    exact ⟨fun h => ⟨hhead, h⟩, fun h => h.2⟩

lemma channel_search_aux_length (m : Nat) (rs : List String) (i : Nat)
    (h : i + 1 ≤ m) :
    (channel_search_aux m rs i).length ≤ m - 1 - i := by
  induction rs generalizing i with
  | nil => simp [channel_search_aux]
  | cons r rs ih =>
    simp only [channel_search_aux]
    by_cases hb : i + 1 = m
    · rw [if_pos hb]; simp
    · rw [if_neg hb, List.length_cons]
      have h2 : i + 1 + 1 ≤ m := by omega
      have := ih (i + 1) h2
      omega

/-- When the `channels` key is present, a duplicate id is rejected and
leaves the config unchanged. -/
lemma add_channel_dup (cs : List Channel) (nc : Channel)
    (h : (cs.any fun c => c.id == nc.id) = true) :
    add_channel ⟨some cs⟩ nc = (⟨some cs⟩, false) := by
  unfold add_channel config_channels
  rw [if_pos]
  exact h

/-- When the `channels` key is present, a fresh id is appended and success
is returned. -/
lemma add_channel_new (cs : List Channel) (nc : Channel)
    (h : (cs.any fun c => c.id == nc.id) = false) :
    add_channel ⟨some cs⟩ nc = (⟨some (cs ++ [nc])⟩, true) := by
  unfold add_channel config_channels
  rw [if_neg]
  simp [h]

/-! ### Claims C1 and C2 -/

/-- C1: for all finite sets `R` (remote) and `L` (local) of video ids,
`sync_channel` computes `to_fetch = R − L` and `to_purge = L − R`
(membership: `x ∈ to_fetch ↔ x ∈ R ∧ x ∉ L`, `x ∈ to_purge ↔ x ∈ L ∧ x ∉ R`),
and the two result sets are disjoint. -/
theorem reconcile_sdiff_and_disjoint (R L : Finset String) :
    (reconcile R L).1 = R \ L ∧ (reconcile R L).2 = L \ R ∧
    (∀ x : String, (x ∈ (reconcile R L).1 ↔ x ∈ R ∧ x ∉ L) ∧
      (x ∈ (reconcile R L).2 ↔ x ∈ L ∧ x ∉ R)) ∧
    (reconcile R L).1 ∩ (reconcile R L).2 = ∅ := by
  refine ⟨rfl, rfl, ?_, ?_⟩
  · intro x
    constructor <;> simp [reconcile]
  · ext x
    simp only [reconcile, Finset.mem_inter, Finset.mem_sdiff,
      Finset.not_mem_empty, iff_false]
    tauto

/-- C2: after one sync pass in which every fetch and purge succeeds, the
local video-id set equals the remote set: the directory-order form
`(L ∪ (R − L)) − (L − R)` computed by the code, and the claim form
`(L − (L − R)) ∪ (R − L)`, both equal `R`. -/
theorem localAfterSync_eq_remote (R L : Finset String) :
    localAfterSync R L = R ∧
    (L \ (reconcile R L).2) ∪ (reconcile R L).1 = R := by
  constructor
  · ext x
    simp only [localAfterSync, reconcile, Finset.mem_sdiff,
      Finset.mem_union]
    tauto
  · ext x
    simp only [reconcile, Finset.mem_sdiff, Finset.mem_union]
    tauto

/-! ### Claim C3 -/

/-- C3 counterexample: the filename `.abc.mp4` contains the purge id `abc`
as a substring, yet `cleanup_videos` does not delete it — the glob module
never matches a hidden file with a pattern that does not itself start with
a dot, and the purge pattern `*abc*` starts with `*`. -/
theorem cleanup_hidden_file_kept :
    (∃ a b, ".abc.mp4".toList = a ++ "abc".toList ++ b) ∧
    cleanup_videos_deleted [".abc.mp4"] ["abc"] = [] := by
  constructor
  · exact ⟨['.'], ".mp4".toList, by decide⟩
  · decide

/-- C3 (amended): for purge ids of word-or-hyphen characters,
`cleanup_videos` deletes exactly the files of the channel directory whose
name does not begin with a dot and contains some purge id as a substring —
a substring match wider than the scanner pattern, so id `abc` matches both
`Title [abc].mp4` and `abc_thumbnail.jpg`, and multiple files matching the
same id are all deleted. -/
theorem cleanup_deletes_substring (files patterns : List String) (f : String)
    (hpat : ∀ p ∈ patterns, ∀ c ∈ p.toList, isWordOrHyphen c = true) :
    (f ∈ cleanup_videos_deleted files patterns ↔
      f ∈ files ∧ f.toList.head? ≠ some '.' ∧
      ∃ p ∈ patterns, ∃ a b, f.toList = a ++ p.toList ++ b) ∧
    cleanup_videos_deleted
      ["Title [abc].mp4", "abc_thumbnail.jpg", "Other [xyz].mp4"] ["abc"] =
      ["Title [abc].mp4", "abc_thumbnail.jpg"] := by
  constructor
  · simp only [cleanup_videos_deleted, List.mem_filter, List.any_eq_true]
    constructor
    · rintro ⟨hf, p, hp, hmatch⟩
      have hc : ∀ c ∈ p.toList, c ≠ '*' ∧ c ≠ '?' := fun c hcmem => by
        have h4 := wordOrHyphen_not_meta (hpat p hp c hcmem)
        exact ⟨h4.1, h4.2.1⟩
      obtain ⟨hhead, hsub⟩ := (globFilter_purge_iff p f.toList hc).mp hmatch
      exact ⟨hf, hhead, p, hp, hsub⟩
    · rintro ⟨hf, hhead, p, hp, hsub⟩
      refine ⟨hf, p, hp, ?_⟩
      have hc : ∀ c ∈ p.toList, c ≠ '*' ∧ c ≠ '?' := fun c hcmem => by
        have h4 := wordOrHyphen_not_meta (hpat p hp c hcmem)
        exact ⟨h4.1, h4.2.1⟩
      exact (globFilter_purge_iff p f.toList hc).mpr ⟨hhead, hsub⟩
  · decide

/-- C3 witness: the amended theorem applied to the thumbnail file. -/
theorem cleanup_deletes_substring_witness :
    ("abc_thumbnail.jpg" ∈ cleanup_videos_deleted
        ["Title [abc].mp4", "abc_thumbnail.jpg", "Other [xyz].mp4"]
        ["abc"] ↔
      "abc_thumbnail.jpg" ∈
        ["Title [abc].mp4", "abc_thumbnail.jpg", "Other [xyz].mp4"] ∧
      "abc_thumbnail.jpg".toList.head? ≠ some '.' ∧
      ∃ p ∈ ["abc"], ∃ a b,
        "abc_thumbnail.jpg".toList = a ++ p.toList ++ b) ∧
    cleanup_videos_deleted
      ["Title [abc].mp4", "abc_thumbnail.jpg", "Other [xyz].mp4"] ["abc"] =
      ["Title [abc].mp4", "abc_thumbnail.jpg"] :=
  cleanup_deletes_substring
    ["Title [abc].mp4", "abc_thumbnail.jpg", "Other [xyz].mp4"] ["abc"]
    "abc_thumbnail.jpg" (by decide)

/-! ### Claim C4 -/

/-- C4: `get_latest_videos` consumes the whole stream when `keep` is None;
with a positive `keep` it collects ids in stream order until `keep` items
have been collected or the stream ends, so the result is the id set of the
first `keep` stream entries and holds at most `keep` ids. -/
theorem get_latest_videos_spec (videos : List String) (k : Nat)
    (hk : 0 < k) :
    get_latest_videos videos none = videos.toFinset ∧
    get_latest_videos videos (some k) = (videos.take k).toFinset ∧
    (get_latest_videos videos (some k)).card ≤ k := by
  have h2 : get_latest_videos videos (some k) = (videos.take k).toFinset := by
    unfold get_latest_videos
    rw [get_latest_videos_aux_some k videos 0 ∅ hk]
    simp
  refine ⟨?_, h2, ?_⟩
  · unfold get_latest_videos
    rw [get_latest_videos_aux_none]
    simp
  · rw [h2]
    calc (videos.take k).toFinset.card ≤ (videos.take k).length :=
          List.toFinset_card_le _
      _ ≤ k := by rw [List.length_take]; omega

/-- C4 witness at a three-element stream with `keep = 2`. -/
theorem get_latest_videos_spec_witness :
    get_latest_videos ["a", "b", "c"] none =
      (["a", "b", "c"] : List String).toFinset ∧
    get_latest_videos ["a", "b", "c"] (some 2) =
      ((["a", "b", "c"] : List String).take 2).toFinset ∧
    (get_latest_videos ["a", "b", "c"] (some 2)).card ≤ 2 :=
  get_latest_videos_spec ["a", "b", "c"] 2 (by decide)

/-! ### Claim C5 -/

/-- C5: the filename parser returns `abc-123` for
`Some Title [abc-123].mp4`, no match for `no-brackets.mp4`, and `y` for
`[x][y].mkv` (the last bracket group before the extension wins); in general
a filename matches exactly when it ends with `[`, a nonempty token of
word-or-hyphen characters, `]`, a literal dot and one or more word
characters. -/
theorem filename_match_spec :
    fileVideoId "Some Title [abc-123].mp4" = some "abc-123" ∧
    fileVideoId "no-brackets.mp4" = none ∧
    fileVideoId "[x][y].mkv" = some "y" ∧
    ∀ file : List Char, (matchVideoId file).isSome = true ↔
      ∃ pre tok ext, file = pre ++ '[' :: (tok ++ ']' :: '.' :: ext) ∧
        tok ≠ [] ∧ (∀ c ∈ tok, isWordOrHyphen c = true) ∧
        ext ≠ [] ∧ (∀ c ∈ ext, isWordChar c = true) :=
  ⟨by decide, by decide, by decide, matchVideoId_isSome_iff⟩

/-! ### Claim C6 -/

/-- C6: `Archiver.sync` does not isolate per-channel failures: when the
first channel's `sync_channel` raises (remote lookup error), the loop
aborts and the healthy second channel is never synced — the synced list is
empty instead of containing the second channel. -/
theorem sync_aborts_on_channel_error :
    sync
      (fun c => if c.id == "UC-bad" then .error "remote lookup failed"
        else .ok ())
      [⟨"bad", "UC-bad", none⟩, ⟨"good", "UC-good", none⟩] =
      ([], some "remote lookup failed") := rfl

/-! ### Claim C7 -/

/-- C7: adding a fresh channel to a config whose YAML mapping lacks the
`channels` key returns success, yet the stored channel list is unchanged:
`self.config.get("channels", []).append(...)` appends to the temporary
fallback list. -/
theorem add_channel_missing_key_lost :
    (add_channel ⟨none⟩ ⟨"chan", "UC1", none⟩).2 = true ∧
    config_channels (add_channel ⟨none⟩ ⟨"chan", "UC1", none⟩).1 = [] :=
  ⟨rfl, rfl⟩

/-! ### Claim C8 -/

/-- C8: when the channel directory cannot be listed the scan returns the
empty set; the listing error is consumed inside `get_local_videos` and not
propagated, so a sync degrades to treating nothing as downloaded. -/
theorem scan_error_empty
    (listdir : String → Except String (List DirEntry))
    (output_path channel_name e : String)
    (h : listdir (channel_path output_path channel_name) = .error e) :
    get_local_videos listdir output_path channel_name = ∅ := by
  unfold get_local_videos
  rw [h]

/-- C8 witness: a directory whose listing fails with a permission error. -/
theorem scan_error_empty_witness :
    get_local_videos (fun _ => .error "Permission denied") "out" "chan" = ∅ :=
  scan_error_empty (fun _ => .error "Permission denied") "out" "chan"
    "Permission denied" rfl

/-! ### Claim C9 -/

/-- C9: every id returned by the local scan is a nonempty token of
word-or-hyphen characters; consequently a purge pattern built from a
scanned id contains no glob metacharacter besides its surrounding
asterisks. -/
theorem scanned_id_chars
    (listdir : String → Except String (List DirEntry))
    (output_path channel_name : String) (id : String)
    (h : id ∈ get_local_videos listdir output_path channel_name) :
    id.toList ≠ [] ∧ (∀ c ∈ id.toList, isWordOrHyphen c = true) ∧
    ∀ c ∈ id.toList, c ≠ '*' ∧ c ≠ '?' ∧ c ≠ '[' ∧ c ≠ ']' := by
  unfold get_local_videos at h
  split at h
  case _ e heq => exact absurd h (by simp)
  case _ files heq =>
    rw [List.mem_toFinset] at h
    obtain ⟨f, hf, hmatch⟩ := List.mem_filterMap.mp h
    have hex : ∃ l, matchVideoId f.name.toList = some l ∧
        (⟨l⟩ : String) = id := by
      unfold fileVideoId at hmatch
      exact Option.map_eq_some'.mp hmatch
    obtain ⟨l, hsome, hid⟩ := hex
    have htok := matchVideoId_token hsome
    have hidl : id.toList = l := by rw [← hid]; rfl
    refine ⟨by rw [hidl]; exact htok.1, ?_, ?_⟩
    · intro c hc; rw [hidl] at hc; exact htok.2 c hc
    · intro c hc; rw [hidl] at hc; exact wordOrHyphen_not_meta (htok.2 c hc)

/-- C9 witness: a scan of a directory holding `My Video [v-1].mp4`. -/
theorem scanned_id_chars_witness :
    "v-1".toList ≠ [] ∧ (∀ c ∈ "v-1".toList, isWordOrHyphen c = true) ∧
    ∀ c ∈ "v-1".toList, c ≠ '*' ∧ c ≠ '?' ∧ c ≠ '[' ∧ c ≠ ']' :=
  scanned_id_chars (fun _ => .ok [⟨"My Video [v-1].mp4", true⟩])
    "out" "chan" "v-1" (by decide)

/-! ### Claim C10 -/

/-- C10: `channel_search` yields at most `max_results − 1` results (at most
4 with the default of 5): the break fires as soon as the index of the next
result plus one equals `max_results`, before that result is yielded. -/
theorem channel_search_bound (results : List String) (n : Nat)
    (h : 0 < n) :
    (channel_search results n).length ≤ n - 1 ∧
    (channel_search results 5).length ≤ 4 := by
  constructor
  · have hb := channel_search_aux_length n results 0 h
    simpa [channel_search] using hb
  · have hb := channel_search_aux_length 5 results 0 (by omega)
    simpa [channel_search] using hb

/-- C10 witness: a six-element result stream with the default bound of 5. -/
theorem channel_search_bound_witness :
    (channel_search ["r1", "r2", "r3", "r4", "r5", "r6"] 5).length ≤ 5 - 1 ∧
    (channel_search ["r1", "r2", "r3", "r4", "r5", "r6"] 5).length ≤ 4 :=
  channel_search_bound ["r1", "r2", "r3", "r4", "r5", "r6"] 5 (by decide)

end YtArchiver
